import Mathlib

/-!
Verification of `readthedocs/projects/version_handling.py`.

The module under verification parses version strings with
`packaging.version.Version` (PEP 440), builds comparable sort keys, sorts
version records with two engines (`sort_versions` and
`sort_versions_generic`), and resolves a stable version
(`determine_stable_version`).

Embedding conventions:
* Python strings are `String` / `List Char`; Python byte strings are
  `List Nat`; a function that can raise returns `Except`.
* `packaging.version.Version` is an external library; it is embedded below
  (`PyVersion`, `pep440ParseChars`, `vkey`) following the library's anchored
  regular expression `VERSION_PATTERN` and its `_cmpkey` comparison key.
* Python's `sorted` / `list.sort` are stable; they are embedded as a stable
  insertion sort (`stableSort`) parameterised by the "may precede" test that
  the key and `reverse` flag induce.
-/

/-! ## Character and digit helpers -/

def natOfDigits (ds : List Char) : Nat :=
  ds.foldl (fun n c => n * 10 + (c.toNat - 48)) 0

/-- Separator characters `[-_.]` of the PEP 440 pattern. -/
def isSep (c : Char) : Bool := c == '-' || c == '_' || c == '.'

/-- ASCII whitespace matched by the `\s*` anchors of the pattern. -/
def isPyWS (c : Char) : Bool :=
  c == ' ' || c == '\t' || c == '\n' || c == '\r' || c == '\x0b' || c == '\x0c'

def trimWS (cs : List Char) : List Char :=
  ((cs.dropWhile isPyWS).reverse.dropWhile isPyWS).reverse

/-- First alternative of `alts` that is a prefix of `cs`, with the rest of
`cs`; models an ordered regex alternation. -/
def matchAlt (alts : List (List Char)) (cs : List Char) :
    Option (List Char × List Char) :=
  match alts with
  | [] => none
  | a :: rest =>
    if a.isPrefixOf cs then some (a, cs.drop a.length) else matchAlt rest cs

/-! ## The `packaging.version.Version` data model -/

/-- A segment of a PEP 440 local version label: all-digit segments are
integers, the others strings (`packaging`'s `_parse_local_version`). -/
inductive LocalSeg where
  | num (n : Nat)
  | str (s : List Char)
deriving DecidableEq, Repr

/-- The parsed form of `packaging.version.Version`: epoch, release numbers,
normalised pre-release (letter rank `a`=0 < `b`=1 < `rc`=2, and number),
post-release number, dev number, and local label. -/
structure PyVersion where
  epoch : Nat
  release : List Nat
  pre : Option (Nat × Nat)
  post : Option Nat
  dev : Option Nat
  localSegs : Option (List LocalSeg)
deriving DecidableEq, Repr

/-- Version.is_prerelease: true when a dev or pre segment is present. -/
def PyVersion.is_prerelease (v : PyVersion) : Bool :=
  v.dev.isSome || v.pre.isSome

/-! ## PEP 440 parsing (the `VERSION_PATTERN` regular expression) -/

/-- Pre-release letter alternatives in the pattern's order
`alpha|a|beta|b|preview|pre|c|rc`, each with its normalised rank
(`_parse_letter_version`: alpha→a, beta→b, c/pre/preview→rc). -/
def preAlts : List (List Char × Nat) :=
  [("alpha".data, 0), ("a".data, 0), ("beta".data, 1), ("b".data, 1),
   ("preview".data, 2), ("pre".data, 2), ("c".data, 2), ("rc".data, 2)]

/-- Post-release letter alternatives `post|rev|r` (all normalise to `post`). -/
def postAlts : List (List Char) := ["post".data, "rev".data, "r".data]

/-- Consume an optional single separator `[-_.]?`. -/
def dropOptSep (cs : List Char) : List Char :=
  match cs with
  | c :: rest => if isSep c then rest else cs
  | [] => cs

/-- Release tail `(\.[0-9]+)*`: consume dot-separated digit groups. -/
def parseRelTail (fuel : Nat) (cs : List Char) : List Nat × List Char :=
  match fuel with
  | 0 => ([], cs)
  | fuel + 1 =>
    match cs with
    | '.' :: rest =>
      let ds := rest.takeWhile Char.isDigit
      if ds.isEmpty then ([], cs)
      else
        let (ns, r) := parseRelTail fuel (rest.dropWhile Char.isDigit)
        (natOfDigits ds :: ns, r)
    | _ => ([], cs)

/-- Pre-release group `([-_.]?(alpha|a|beta|b|preview|pre|c|rc)[-_.]?[0-9]*)?`:
either the whole group matches (consuming greedily, a missing number meaning
0) or nothing is consumed. -/
def parsePreGroup (cs : List Char) : Option ((Nat × Nat) × List Char) :=
  let cs1 := dropOptSep cs
  match matchAlt (preAlts.map (·.1)) cs1 with
  | none => none
  | some (a, rest) =>
    let rank := ((preAlts.find? (fun p => p.1 == a)).map (·.2)).getD 0
    let rest2 := dropOptSep rest
    let ds := rest2.takeWhile Char.isDigit
    some ((rank, natOfDigits ds), rest2.dropWhile Char.isDigit)

/-- Second post-release alternative `[-_.]?(post|rev|r)[-_.]?[0-9]*`. -/
def parsePostLetter (cs : List Char) : Option (Nat × List Char) :=
  let cs1 := dropOptSep cs
  match matchAlt postAlts cs1 with
  | none => none
  | some (_, rest) =>
    let rest2 := dropOptSep rest
    let ds := rest2.takeWhile Char.isDigit
    some (natOfDigits ds, rest2.dropWhile Char.isDigit)

/-- Post-release group: first alternative `-[0-9]+`, else the letter form. -/
def parsePostGroup (cs : List Char) : Option (Nat × List Char) :=
  match cs with
  | '-' :: rest =>
    let ds := rest.takeWhile Char.isDigit
    if ds.isEmpty then parsePostLetter cs
    else some (natOfDigits ds, rest.dropWhile Char.isDigit)
  | _ => parsePostLetter cs

/-- Dev group `[-_.]?dev[-_.]?[0-9]*`. -/
def parseDevGroup (cs : List Char) : Option (Nat × List Char) :=
  let cs1 := dropOptSep cs
  if "dev".data.isPrefixOf cs1 then
    let rest := cs1.drop 3
    let rest2 := dropOptSep rest
    let ds := rest2.takeWhile Char.isDigit
    some (natOfDigits ds, rest2.dropWhile Char.isDigit)
  else none

/-- One local-version segment `[a-z0-9]+`; all-digit segments are numeric. -/
def localSegOf (ds : List Char) : LocalSeg :=
  if ds.all Char.isDigit then .num (natOfDigits ds) else .str ds

def isAlnum (c : Char) : Bool := c.isDigit || c.isLower

/-- Tail of a local label `([-_.][a-z0-9]+)*`. -/
def parseLocalTail (fuel : Nat) (cs : List Char) : List LocalSeg × List Char :=
  match fuel with
  | 0 => ([], cs)
  | fuel + 1 =>
    match cs with
    | c :: rest =>
      if isSep c then
        let ds := rest.takeWhile isAlnum
        if ds.isEmpty then ([], cs)
        else
          let (segs, r) := parseLocalTail fuel (rest.dropWhile isAlnum)
          (localSegOf ds :: segs, r)
      else ([], cs)
    | [] => ([], cs)

/-- Local version group `(\+[a-z0-9]+([-_.][a-z0-9]+)*)?`. -/
def parseLocalGroup (cs : List Char) :
    Option (List LocalSeg × List Char) :=
  match cs with
  | '+' :: rest =>
    let ds := rest.takeWhile isAlnum
    if ds.isEmpty then none
    else
      let (segs, r) := parseLocalTail rest.length (rest.dropWhile isAlnum)
      some (localSegOf ds :: segs, r)
  | _ => none

/-- The anchored, case-insensitive PEP 440 parse of `packaging`'s
`Version(...)` constructor: `none` models a raised `InvalidVersion`. -/
def pep440ParseChars (cs0 : List Char) : Option PyVersion :=
  let cs := (trimWS cs0).map Char.toLower
  let cs := match cs with
    | 'v' :: rest => rest
    | _ => cs
  let dsE := cs.takeWhile Char.isDigit
  let (epoch, csR) :=
    match dsE, cs.dropWhile Char.isDigit with
    | _ :: _, '!' :: rest => (natOfDigits dsE, rest)
    | _, _ => (0, cs)
  let ds0 := csR.takeWhile Char.isDigit
  if ds0.isEmpty then none
  else
    let rest0 := csR.dropWhile Char.isDigit
    let (relTail, rest1) := parseRelTail rest0.length rest0
    let release := natOfDigits ds0 :: relTail
    let (pre, rest2) :=
      match parsePreGroup rest1 with
      | some (p, r) => (some p, r)
      | none => (none, rest1)
    let (post, rest3) :=
      match parsePostGroup rest2 with
      | some (n, r) => (some n, r)
      | none => (none, rest2)
    let (dev, rest4) :=
      match parseDevGroup rest3 with
      | some (n, r) => (some n, r)
      | none => (none, rest3)
    let (localSegs, rest5) :=
      match parseLocalGroup rest4 with
      | some (s, r) => (some s, r)
      | none => (none, rest4)
    if rest5.isEmpty then some ⟨epoch, release, pre, post, dev, localSegs⟩
    else none

def pep440Parse (s : String) : Option PyVersion := pep440ParseChars s.data

/-! ## The Version comparison key (`packaging`'s `_cmpkey`)

Versions compare by the lexicographic key (epoch, release with trailing
zeros removed, pre, post, dev, local), with the pre slot replaced by minus
or plus infinity in the documented cases.  Infinities and tags are encoded
as a leading discriminant of a lexicographic product. -/

abbrev SegKey := ℕ ×ₗ (ℕ ×ₗ List ℕ)
abbrev LocalKey := ℕ ×ₗ List SegKey
abbrev PreKey := ℕ ×ₗ (ℕ ×ₗ ℕ)
abbrev PairKey := ℕ ×ₗ ℕ
abbrev VKey := ℕ ×ₗ (List ℕ ×ₗ (PreKey ×ₗ (PairKey ×ₗ (PairKey ×ₗ LocalKey))))

/-- Release padding removal: `_cmpkey` drops trailing zero components, so
`1.0` and `1.0.0` compare equal. -/
def dropTrailingZeros : List Nat → List Nat
  | [] => []
  | a :: rest =>
    match dropTrailingZeros rest with
    | [] => if a = 0 then [] else [a]
    | r => a :: r

/-- Local segments: integers rank above strings, as in `_cmpkey`. -/
def segKey : LocalSeg → SegKey
  | .num n => toLex (1, toLex (n, []))
  | .str s => toLex (0, toLex (0, s.map Char.toNat))

/-- Pre slot: minus infinity for a bare dev release, plus infinity when no
pre segment is present, otherwise the (letter rank, number) pair. -/
def preKey (v : PyVersion) : PreKey :=
  match v.pre with
  | some (l, n) => toLex (1, toLex (l, n))
  | none =>
    if v.post.isNone && v.dev.isSome then toLex (0, toLex (0, 0))
    else toLex (2, toLex (0, 0))

def postKey (v : PyVersion) : PairKey :=
  match v.post with
  | some n => toLex (1, n)
  | none => toLex (0, 0)

def devKey (v : PyVersion) : PairKey :=
  match v.dev with
  | some n => toLex (0, n)
  | none => toLex (1, 0)

def localKey (v : PyVersion) : LocalKey :=
  match v.localSegs with
  | some segs => toLex (1, segs.map segKey)
  | none => toLex (0, [])

def vkey (v : PyVersion) : VKey :=
  toLex (v.epoch, toLex (dropTrailingZeros v.release,
    toLex (preKey v, toLex (postKey v, toLex (devKey v, localKey v)))))

/-- Python rich comparison `<` on Version objects. -/
def pvLt (a b : PyVersion) : Prop := vkey a < vkey b

instance (a b : PyVersion) : Decidable (pvLt a b) :=
  inferInstanceAs (Decidable (vkey a < vkey b))

/-! ## parse_version_failsafe -/

/-- Model of `unicodedata.normalize("NFKD", s).encode("ascii", "ignore")`:
non-ASCII characters are discarded.  On ASCII input (every string the
claims touch) NFKD is the identity, so the model is exact there; a
non-ASCII character whose NFKD decomposition contains ASCII characters
would keep those in Python but is dropped here. -/
def asciiFilter (cs : List Char) : List Char :=
  cs.filter (fun c => c.toNat ≤ 127)

/-- Python's `final_form.replace(".x", ".999999")`: non-overlapping
left-to-right replacement of every `.x` occurrence. -/
def replaceDotX : List Char → List Char
  | [] => []
  | [c] => [c]
  | c1 :: c2 :: rest =>
    if c1 = '.' ∧ c2 = 'x' then
      '.' :: '9' :: '9' :: '9' :: '9' :: '9' :: '9' :: replaceDotX rest
    else c1 :: replaceDotX (c2 :: rest)

/-- Python's `".x" in final_form`. -/
def hasDotX : List Char → Bool
  | [] => false
  | [_] => false
  | c1 :: c2 :: rest => (decide (c1 = '.') && decide (c2 = 'x')) || hasDotX (c2 :: rest)

/-- Recursion of `parse_version_failsafe` on the `.x`-substituted string.
Each recursive step removes at least one `x` (the guard guarantees a `.x`
occurrence and the substitution introduces none), so the count of `x`
characters strictly decreases and fuel `count + 1` is never exhausted. -/
def parseFailsafeAux : Nat → List Char → Option PyVersion
  | 0, _ => none
  | fuel + 1, cs =>
    let finalForm := asciiFilter cs
    match pep440ParseChars finalForm with
    | some v => some v
    | none =>
      if !finalForm.isEmpty && hasDotX finalForm then
        parseFailsafeAux fuel (replaceDotX finalForm)
      else none

/-- parse_version_failsafe on an already decoded string. -/
def parseFailsafeChars (cs : List Char) : Option PyVersion :=
  parseFailsafeAux (cs.count 'x' + 1) cs

/-! ## The bytes branch of parse_version_failsafe -/

/-- Continuation byte test `0x80..0xBF`. -/
def contB (b : Nat) : Bool := 128 ≤ b && b ≤ 191

/-- Strict UTF-8 decoding as performed by Python's `bytes.decode("utf-8")`:
rejects overlong forms, surrogates and values above U+10FFFF. -/
def utf8DecodeAux : Nat → List Nat → Option (List Char)
  | _, [] => some []
  | 0, _ => none
  | fuel + 1, b :: rest =>
    if b ≤ 127 then
      (utf8DecodeAux fuel rest).map (Char.ofNat b :: ·)
    else if 194 ≤ b && b ≤ 223 then
      match rest with
      | b1 :: r =>
        if contB b1 then
          (utf8DecodeAux fuel r).map
            (Char.ofNat ((b - 192) * 64 + (b1 - 128)) :: ·)
        else none
      | [] => none
    else if 224 ≤ b && b ≤ 239 then
      match rest with
      | b1 :: b2 :: r =>
        let lo1 := if b = 224 then 160 else 128
        let hi1 := if b = 237 then 159 else 191
        if (lo1 ≤ b1 && b1 ≤ hi1) && contB b2 then
          (utf8DecodeAux fuel r).map
            (Char.ofNat ((b - 224) * 4096 + (b1 - 128) * 64 + (b2 - 128)) :: ·)
        else none
      | _ => none
    else if 240 ≤ b && b ≤ 244 then
      match rest with
      | b1 :: b2 :: b3 :: r =>
        let lo1 := if b = 240 then 144 else 128
        let hi1 := if b = 244 then 143 else 191
        if (lo1 ≤ b1 && b1 ≤ hi1) && contB b2 && contB b3 then
          (utf8DecodeAux fuel r).map
            (Char.ofNat ((b - 240) * 262144 + (b1 - 128) * 4096 +
              (b2 - 128) * 64 + (b3 - 128)) :: ·)
        else none
      | _ => none
    else none

def utf8Decode (bs : List Nat) : Option (List Char) :=
  utf8DecodeAux bs.length bs

/-- A Python `str` or `bytes` argument ("str or unicode" in the docstring). -/
inductive PyStr where
  | str (s : String)
  | bytes (bs : List Nat)

inductive PyErr where
  | unicodeDecodeErr
deriving DecidableEq, Repr

/-- Full parse_version_failsafe.  The `version_string.decode("utf-8")` call
sits before the `try` block of the source, so a decoding failure escapes to
the caller as a raised `UnicodeDecodeError` (`Except.error` here); the
`except UnicodeError` handler inside the function cannot catch it. -/
def parse_version_failsafe : PyStr → Except PyErr (Option PyVersion)
  | .str s => .ok (parseFailsafeChars s.data)
  | .bytes bs =>
    match utf8Decode bs with
    | some cs => .ok (parseFailsafeChars cs)
    | none => .error .unicodeDecodeErr

def exceptOk : Except PyErr (Option PyVersion) → Bool
  | .ok _ => true
  | .error _ => false

/-! ## comparable_version -/

/-- Modelled from the spec: `readthedocs/builds/constants.py` is not in the
source tree.  The synthetic names are `latest` and `stable`, both as slug
constants and as verbose names. -/
def LATEST : String := "latest"

def STABLE : String := "stable"

def LATEST_VERBOSE_NAME : String := "latest"

def STABLE_VERBOSE_NAME : String := "stable"

/-- Version kinds (`BRANCH` / `TAG` constants of the builds app). -/
inductive VKind where
  | branch
  | tag
deriving DecidableEq, Repr

/-- Modelled from the spec: the VCS backend registry
(`readthedocs.vcs_support.backends.backend_cls`) is not in the source tree;
it maps a repository kind to its optional default branch (git to master). -/
def backendFallbackBranch : String → Option String
  | "git" => some "master"
  | _ => none

/-- The priority list built at the top of comparable_version: the backend
fallback branch when available, then the latest and stable verbose names. -/
def highestVersions (repo_type : Option String) : List String :=
  (match repo_type with
   | some rt =>
     match backendFallbackBranch rt with
     | some fb => [fb]
     | none => []
   | none => []) ++ [LATEST_VERBOSE_NAME, STABLE_VERBOSE_NAME]

/-- Python's membership test plus `list.index`: the position of the first
occurrence, or absence. -/
def listIndex (a : String) : List String → Option Nat
  | [] => none
  | b :: t => if b = a then some 0 else (listIndex a t).map (· + 1)

/-- comparable_version: the failsafe parse when it succeeds, otherwise
`Version(str(999999 - position))` for a synthetic name and `Version("0.01")`
as the low sentinel. -/
def comparable_version (version_string : String) (repo_type : Option String) :
    PyVersion :=
  match parseFailsafeChars version_string.data with
  | some c => c
  | none =>
    match listIndex version_string (highestVersions repo_type) with
    | some position =>
      (pep440Parse (toString (999999 - position))).getD ⟨0, [], none, none, none, none⟩
    | none => (pep440Parse "0.01").getD ⟨0, [], none, none, none, none⟩

/-! ## Version records and Python's stable sort -/

/-- The fields of a `builds.models.Version` record that version handling
reads: `slug`, `verbose_name` and `type`. -/
structure VRecord where
  slug : String
  verbose_name : String
  vtype : VKind
deriving DecidableEq, Repr

/-- Insert `x` in front of the first element `y` with `le x y`; `le x y`
reads "x may precede y". -/
def stableInsert {α : Type} (le : α → α → Bool) (x : α) : List α → List α
  | [] => [x]
  | y :: ys => if le x y then x :: y :: ys else y :: stableInsert le x ys

/-- Stable insertion sort: the unique stable sort for the total preorder
`le`, hence a faithful model of Python's `sorted` / `list.sort`. -/
def stableSort {α : Type} (le : α → α → Bool) : List α → List α
  | [] => []
  | x :: xs => stableInsert le x (stableSort le xs)

/-- Python `sorted(l, key=key, reverse=True)`: stable descending by key. -/
def pySortKeyDesc {α κ : Type} [LinearOrder κ] (key : α → κ) (l : List α) :
    List α :=
  stableSort (fun a b => decide (key b ≤ key a)) l

/-- Python `sorted(l, key=key)`: stable ascending by key. -/
def pySortKeyAsc {α κ : Type} [LinearOrder κ] (key : α → κ) (l : List α) :
    List α :=
  stableSort (fun a b => decide (key a ≤ key b)) l

/-! ## sort_versions and determine_stable_version -/

/-- sort_versions: keep only records whose verbose name parses (a `Version`
object is always truthy, `None` falsy), pairing each with its parse, then
sort descending by the parsed version. -/
def sort_versions (version_list : List VRecord) : List (VRecord × PyVersion) :=
  let versions := version_list.filterMap
    (fun version_obj => (parseFailsafeChars version_obj.verbose_name.data).map
      (fun c => (version_obj, c)))
  pySortKeyDesc (fun p => vkey p.2) versions

/-- determine_stable_version: drop pre-releases from the sorted list, return
the first tag, else the highest remaining record, else nothing. -/
def determine_stable_version (version_list : List VRecord) : Option VRecord :=
  let versions := (sort_versions version_list).filter
    (fun p => !(p.2.is_prerelease))
  match versions.find? (fun p => p.1.vtype == VKind.tag) with
  | some p => some p.1
  | none => versions.head?.map (·.1)

/-! ## The generic sort engine -/

/-- The partitioning loop of sort_versions_generic over the alphabetically
pre-sorted list: pinned `(version, slug)` pairs, valid `(version, parsed)`
pairs, and invalid records, each in traversal order.  A strategy's parse
function is embedded as an `Option`-returning function (`none` models a
raised `exception`); `K` carries the parsed values with the total preorder
their rich comparison induces, represented by a linear order on canonical
comparison keys. -/
def partitionVersions {K : Type} (parse : String → Option K)
    (latest_stable_at_beginning : Bool) :
    List VRecord →
      List (VRecord × String) × List (VRecord × K) × List VRecord
  | [] => ([], [], [])
  | version :: rest =>
    let r := partitionVersions parse latest_stable_at_beginning rest
    if latest_stable_at_beginning &&
        (version.slug == STABLE || version.slug == LATEST) then
      ((version, version.slug) :: r.1, r.2.1, r.2.2)
    else
      match parse version.slug with
      | some k => (r.1, (version, k) :: r.2.1, r.2.2)
      | none => (r.1, r.2.1, version :: r.2.2)

/-- sort_versions_generic: alphabetical descending baseline by slug, the
pinned group sorted ascending by slug (so latest precedes stable), the valid
group sorted descending by parsed value, the invalid group unchanged.  The
source's final `is not None` filter is vacuous here: records are modelled as
non-null values (a `None` element would raise before reaching it). -/
def sort_versions_generic {K : Type} [LinearOrder K]
    (parse : String → Option K) (latest_stable_at_beginning : Bool)
    (version_list : List VRecord) : List VRecord :=
  let alphabeticallySorted := pySortKeyDesc (fun v => v.slug.data) version_list
  let parts := partitionVersions parse latest_stable_at_beginning
    alphabeticallySorted
  (pySortKeyAsc (fun p : VRecord × String => p.2.data) parts.1).map (·.1) ++
    (pySortKeyDesc (fun p : VRecord × K => p.2) parts.2.1).map (·.1) ++
    parts.2.2

/-- sort_versions_python_packaging: the generic engine with `Version(slug)`
as the parse function (`InvalidVersion` as the failure), versions compared
by their canonical comparison key.  The calendar and custom-pattern
adapters plug a different external parser (`bumpver`) into the same engine
and are not separately modelled. -/
def sort_versions_python_packaging (version_list : List VRecord)
    (latest_stable_at_beginning : Bool) : List VRecord :=
  sort_versions_generic (fun slug => (pep440Parse slug).map vkey)
    latest_stable_at_beginning version_list

/-! ## Lemmas about the stable sort -/

theorem stableInsert_perm {α : Type} (le : α → α → Bool) (x : α)
    (l : List α) : (stableInsert le x l).Perm (x :: l) := by
  induction l with
  | nil => exact .refl _
  | cons y ys ih =>
    simp only [stableInsert]
    split
    · exact .refl _
    · exact (ih.cons y).trans (List.Perm.swap x y ys)

theorem stableSort_perm {α : Type} (le : α → α → Bool) (l : List α) :
    (stableSort le l).Perm l := by
  induction l with
  | nil => exact .refl _
  | cons x xs ih => exact (stableInsert_perm le x _).trans (ih.cons x)

theorem stableInsert_pairwise {α : Type} (le : α → α → Bool)
    (htot : ∀ a b : α, le a b = true ∨ le b a = true)
    (htrans : ∀ a b c : α, le a b = true → le b c = true → le a c = true)
    (x : α) (l : List α) (hl : l.Pairwise (fun a b => le a b = true)) :
    (stableInsert le x l).Pairwise (fun a b => le a b = true) := by
  induction l with
  | nil => simp [stableInsert]
  | cons y ys ih =>
    rcases List.pairwise_cons.mp hl with ⟨hy, hys⟩
    simp only [stableInsert]
    split
    case isTrue h =>
      refine List.pairwise_cons.mpr ⟨?_, hl⟩
      intro b hb
      rcases List.mem_cons.mp hb with rfl | hb'
      · exact h
      · exact htrans x y b h (hy b hb')
    case isFalse h =>
      refine List.pairwise_cons.mpr ⟨?_, ih hys⟩
      intro b hb
      have hmem := (stableInsert_perm le x ys).mem_iff.mp hb
      rcases List.mem_cons.mp hmem with rfl | hb'
      · rcases htot y b with h' | h'
        · exact h'
        · exact absurd h' h
      · exact hy b hb'

theorem stableSort_pairwise {α : Type} (le : α → α → Bool)
    (htot : ∀ a b : α, le a b = true ∨ le b a = true)
    (htrans : ∀ a b c : α, le a b = true → le b c = true → le a c = true)
    (l : List α) :
    (stableSort le l).Pairwise (fun a b => le a b = true) := by
  induction l with
  | nil => simp [stableSort]
  | cons x xs ih => exact stableInsert_pairwise le htot htrans x _ ih

theorem stableSort_of_pairwise {α : Type} (le : α → α → Bool) (l : List α)
    (h : l.Pairwise (fun a b => le a b = true)) : stableSort le l = l := by
  induction l with
  | nil => rfl
  | cons x xs ih =>
    rcases List.pairwise_cons.mp h with ⟨hx, hxs⟩
    simp only [stableSort, ih hxs]
    cases xs with
    | nil => rfl
    | cons y ys =>
      simp only [stableInsert]
      rw [if_pos (hx y (by simp))]

theorem filter_stableInsert {α : Type} (le : α → α → Bool) (q : α → Bool)
    (x : α) (l : List α)
    (hx : q x = true → ∀ b ∈ l, q b = true → le x b = true) :
    List.filter q (stableInsert le x l) =
      if q x then x :: List.filter q l else List.filter q l := by
  induction l with
  | nil => cases h : q x <;> simp [stableInsert, List.filter_cons, h]
  | cons y ys ih =>
    simp only [stableInsert]
    split
    case isTrue h => simp [List.filter_cons]
    case isFalse h =>
      have ih' := ih (fun hqx b hb hqb => hx hqx b (List.mem_cons_of_mem y hb) hqb)
      by_cases hqx : q x = true
      · have hqy : q y = false := by
          by_contra hqy'
          exact h (hx hqx y (List.mem_cons_self y ys) (by simpa using hqy'))
        simp [List.filter_cons, hqy, hqx, ih']
      · have hqx' : q x = false := by simpa using hqx
        by_cases hqy : q y = true
        · simp [List.filter_cons, hqy, hqx', ih']
        · simp [List.filter_cons, hqx', (by simpa using hqy : q y = false), ih']

theorem filter_stableSort {α : Type} (le : α → α → Bool) (q : α → Bool)
    (l : List α)
    (hq : ∀ a ∈ l, ∀ b ∈ l, q a = true → q b = true → le a b = true) :
    List.filter q (stableSort le l) = List.filter q l := by
  induction l with
  | nil => rfl
  | cons x xs ih =>
    have hmem : ∀ b ∈ stableSort le xs, b ∈ xs := fun b hb =>
      (stableSort_perm le xs).mem_iff.mp hb
    simp only [stableSort]
    rw [filter_stableInsert le q x _ (fun hqx b hb hqb =>
      hq x (List.mem_cons_self x xs) b
        (List.mem_cons_of_mem x (hmem b hb)) hqx hqb)]
    rw [ih (fun a ha b hb => hq a (List.mem_cons_of_mem x ha) b
      (List.mem_cons_of_mem x hb))]
    rw [List.filter_cons]

/-- A list permutation that is sorted descending by a key and whose
equal-key sublists agree is unique: this pins down the output of any
stable descending sort.  The key classes are given by a Boolean test `cls`
to keep the statement independent of a particular decidability instance. -/
theorem stable_sorted_unique {α κ : Type} [LinearOrder κ] (key : α → κ)
    (cls : κ → α → Bool) (hcls : ∀ (x : κ) (a : α), cls x a = true ↔ key a = x)
    (l₁ : List α) : ∀ l₂ : List α, l₁.Perm l₂ →
    l₁.Pairwise (fun a b => key b ≤ key a) →
    l₂.Pairwise (fun a b => key b ≤ key a) →
    (∀ x : κ, l₁.filter (cls x) = l₂.filter (cls x)) →
    l₁ = l₂ := by
  induction l₁ with
  | nil =>
    intro l₂ hp _ _ _
    exact (hp.symm.eq_nil).symm
  | cons a t₁ ih =>
    intro l₂ hp h₁ h₂ hf
    cases l₂ with
    | nil => exact absurd hp.eq_nil (by simp)
    | cons b t₂ =>
      have hab : a = b := by
        by_cases hk : key b = key a
        · have hfa := hf (key a)
          rw [List.filter_cons_of_pos ((hcls (key a) a).mpr rfl),
            List.filter_cons_of_pos ((hcls (key a) b).mpr hk)] at hfa
          injection hfa with h1 h2
        · exfalso
          have ha2 : a ∈ b :: t₂ := hp.mem_iff.mp (List.mem_cons_self a t₁)
          have ha2' : a ∈ t₂ := by
            rcases List.mem_cons.mp ha2 with rfl | h'
            · exact absurd rfl hk
            · exact h'
          have hba : key a ≤ key b := (List.pairwise_cons.mp h₂).1 a ha2'
          have hb1 : b ∈ a :: t₁ := hp.symm.mem_iff.mp (List.mem_cons_self b t₂)
          have hb1' : b ∈ t₁ := by
            rcases List.mem_cons.mp hb1 with rfl | h'
            · exact absurd rfl hk
            · exact h'
          have hab' : key b ≤ key a := (List.pairwise_cons.mp h₁).1 b hb1'
          exact hk (le_antisymm hab' hba)
      subst hab
      have hf' : ∀ x : κ, t₁.filter (cls x) = t₂.filter (cls x) := by
        intro x
        have hfx := hf x
        by_cases hx : key a = x
        · rw [List.filter_cons_of_pos ((hcls x a).mpr hx),
            List.filter_cons_of_pos ((hcls x a).mpr hx)] at hfx
          injection hfx with h1 h2
        · rwa [List.filter_cons_of_neg (by simp [hcls, hx]),
            List.filter_cons_of_neg (by simp [hcls, hx])] at hfx
      exact congrArg (a :: ·) (ih t₂ hp.cons_inv h₁.of_cons h₂.of_cons hf')

/-! ## Structure of the generic engine's output -/

/-- The pinned test of the partition loop, as a predicate on records. -/
def pinnedB (latest_stable_at_beginning : Bool) (v : VRecord) : Bool :=
  latest_stable_at_beginning && (v.slug == STABLE || v.slug == LATEST)

/-- Records that reach the parse and succeed. -/
def validB {K : Type} (parse : String → Option K)
    (latest_stable_at_beginning : Bool) (v : VRecord) : Bool :=
  !(pinnedB latest_stable_at_beginning v) && (parse v.slug).isSome

/-- Records that reach the parse and fail. -/
def invalidB {K : Type} (parse : String → Option K)
    (latest_stable_at_beginning : Bool) (v : VRecord) : Bool :=
  !(pinnedB latest_stable_at_beginning v) && (parse v.slug).isNone

/-- Composition step of sort_versions_generic on the already alphabetised
list: sorted pinned pairs, then sorted valid pairs, then invalid records. -/
def genericCompose {K : Type} [LinearOrder K] (parse : String → Option K)
    (latest_stable_at_beginning : Bool) (base : List VRecord) : List VRecord :=
  (pySortKeyAsc (fun p : VRecord × String => p.2.data)
    (partitionVersions parse latest_stable_at_beginning base).1).map (·.1) ++
    (pySortKeyDesc (fun p : VRecord × K => p.2)
      (partitionVersions parse latest_stable_at_beginning base).2.1).map (·.1) ++
    (partitionVersions parse latest_stable_at_beginning base).2.2

theorem sort_versions_generic_eq_compose {K : Type} [LinearOrder K]
    (parse : String → Option K) (flag : Bool) (l : List VRecord) :
    sort_versions_generic parse flag l =
      genericCompose parse flag (pySortKeyDesc (fun v => v.slug.data) l) := rfl

theorem partition_pinned {K : Type} (parse : String → Option K) (flag : Bool)
    (l : List VRecord) :
    (partitionVersions parse flag l).1 =
      (l.filter (pinnedB flag)).map (fun v => (v, v.slug)) := by
  induction l with
  | nil => rfl
  | cons v rest ih =>
    simp only [partitionVersions, List.filter_cons]
    by_cases h : pinnedB flag v = true
    · rw [if_pos (by simpa [pinnedB] using h)]
      simp [h, ih]
    · rw [if_neg (by simpa [pinnedB] using h)]
      cases hp : parse v.slug <;>
        simp [(by simpa using h : pinnedB flag v = false), ih]

theorem partition_valid_map {K : Type} (parse : String → Option K)
    (flag : Bool) (l : List VRecord) :
    (partitionVersions parse flag l).2.1.map (·.1) =
      l.filter (validB parse flag) := by
  induction l with
  | nil => rfl
  | cons v rest ih =>
    simp only [partitionVersions, List.filter_cons]
    by_cases h : pinnedB flag v = true
    · rw [if_pos (by simpa [pinnedB] using h)]
      simp [validB, h, ih]
    · rw [if_neg (by simpa [pinnedB] using h)]
      cases hp : parse v.slug <;>
        simp [validB, (by simpa using h : pinnedB flag v = false), hp, ih]

theorem partition_invalid {K : Type} (parse : String → Option K)
    (flag : Bool) (l : List VRecord) :
    (partitionVersions parse flag l).2.2 = l.filter (invalidB parse flag) := by
  induction l with
  | nil => rfl
  | cons v rest ih =>
    simp only [partitionVersions, List.filter_cons]
    by_cases h : pinnedB flag v = true
    · rw [if_pos (by simpa [pinnedB] using h)]
      simp [invalidB, h, ih]
    · rw [if_neg (by simpa [pinnedB] using h)]
      cases hp : parse v.slug <;>
        simp [invalidB, (by simpa using h : pinnedB flag v = false), hp, ih]

theorem partition_valid_parse {K : Type} (parse : String → Option K)
    (flag : Bool) (l : List VRecord) :
    ∀ p ∈ (partitionVersions parse flag l).2.1, parse p.1.slug = some p.2 := by
  induction l with
  | nil => intro p hp; simp [partitionVersions] at hp
  | cons v rest ih =>
    intro p hp
    simp only [partitionVersions] at hp
    by_cases h : (flag && (v.slug == STABLE || v.slug == LATEST)) = true
    · rw [if_pos h] at hp
      exact ih p hp
    · rw [if_neg h] at hp
      revert hp
      cases hq : parse v.slug with
      | none => exact fun hp => ih p hp
      | some k =>
        intro hp
        rcases List.mem_cons.mp hp with rfl | hp'
        · exact hq
        · exact ih p hp'

/-- Slug equality with a fixed character list, the tie class of the
alphabetical baseline. -/
def slugEq (x : List Char) (v : VRecord) : Bool := decide (v.slug.data = x)

theorem slugEq_slug {x : List Char} {v : VRecord} (h : slugEq x v = true) :
    v.slug = String.mk x :=
  String.toList_inj.mp (of_decide_eq_true h)


/-- The pinned test as a function of the slug alone. -/
def pinnedSlug (flag : Bool) (s : String) : Bool :=
  flag && (s == STABLE || s == LATEST)

theorem pinnedB_eq_pinnedSlug (flag : Bool) (v : VRecord) :
    pinnedB flag v = pinnedSlug flag v.slug := rfl

/-- The three buckets of a slug tie class: records with equal slugs all land
in the same bucket, so exactly one of the three filters keeps the class. -/
theorem filter_buckets {K : Type} (parse : String → Option K) (flag : Bool)
    (b : List VRecord) (x : List Char) :
    b.filter (fun v => slugEq x v && pinnedB flag v) ++
      (b.filter (fun v => slugEq x v && validB parse flag v) ++
        b.filter (fun v => slugEq x v && invalidB parse flag v)) =
      b.filter (slugEq x) := by
  by_cases hpin : pinnedSlug flag (String.mk x) = true
  · have h1 : b.filter (fun v => slugEq x v && pinnedB flag v) =
        b.filter (slugEq x) := by
      refine List.filter_congr fun v _ => ?_
      cases hv : slugEq x v with
      | false => rfl
      | true =>
        simp [pinnedB_eq_pinnedSlug, slugEq_slug hv, hpin]
    have h2 : b.filter (fun v => slugEq x v && validB parse flag v) = [] := by
      refine (List.filter_congr (q := fun _ => false) fun v _ => ?_).trans
        (List.filter_false b)
      cases hv : slugEq x v with
      | false => rfl
      | true =>
        simp [validB, pinnedB_eq_pinnedSlug, slugEq_slug hv, hpin]
    have h3 : b.filter (fun v => slugEq x v && invalidB parse flag v) = [] := by
      refine (List.filter_congr (q := fun _ => false) fun v _ => ?_).trans
        (List.filter_false b)
      cases hv : slugEq x v with
      | false => rfl
      | true =>
        simp [invalidB, pinnedB_eq_pinnedSlug, slugEq_slug hv, hpin]
    rw [h1, h2, h3]
    simp
  · have hpin' : pinnedSlug flag (String.mk x) = false := by simpa using hpin
    have h1 : b.filter (fun v => slugEq x v && pinnedB flag v) = [] := by
      refine (List.filter_congr (q := fun _ => false) fun v _ => ?_).trans
        (List.filter_false b)
      cases hv : slugEq x v with
      | false => rfl
      | true =>
        simp [pinnedB_eq_pinnedSlug, slugEq_slug hv, hpin']
    by_cases hsome : (parse (String.mk x)).isSome = true
    · have h2 : b.filter (fun v => slugEq x v && validB parse flag v) =
          b.filter (slugEq x) := by
        refine List.filter_congr fun v _ => ?_
        cases hv : slugEq x v with
        | false => rfl
        | true =>
          simp [validB, pinnedB_eq_pinnedSlug, slugEq_slug hv, hpin', hsome]
      have h3 : b.filter (fun v => slugEq x v && invalidB parse flag v) = [] := by
        refine (List.filter_congr (q := fun _ => false) fun v _ => ?_).trans
          (List.filter_false b)
        cases hv : slugEq x v with
        | false => rfl
        | true =>
          cases hk : parse (String.mk x) with
          | none => rw [hk] at hsome; simp at hsome
          | some k =>
            simp [invalidB, pinnedB_eq_pinnedSlug, slugEq_slug hv, hpin', hk]
      rw [h1, h2, h3]
      simp
    · have hnone : (parse (String.mk x)).isNone = true := by
        cases hk : parse (String.mk x) with
        | none => rfl
        | some k => rw [hk] at hsome; simp at hsome
      have h2 : b.filter (fun v => slugEq x v && validB parse flag v) = [] := by
        refine (List.filter_congr (q := fun _ => false) fun v _ => ?_).trans
          (List.filter_false b)
        cases hv : slugEq x v with
        | false => rfl
        | true =>
          cases hk : parse (String.mk x) with
          | none => simp [validB, pinnedB_eq_pinnedSlug, slugEq_slug hv, hpin', hk]
          | some k => rw [hk] at hsome; simp at hsome
      have h3 : b.filter (fun v => slugEq x v && invalidB parse flag v) =
          b.filter (slugEq x) := by
        refine List.filter_congr fun v _ => ?_
        cases hv : slugEq x v with
        | false => rfl
        | true =>
          simp [invalidB, pinnedB_eq_pinnedSlug, slugEq_slug hv, hpin', hnone]
      rw [h1, h2, h3]
      simp

theorem filter_map_fst {β : Type} (q : VRecord → Bool)
    (s : List (VRecord × β)) :
    (s.map (·.1)).filter q = (s.filter (fun p => q p.1)).map (·.1) := by
  induction s with
  | nil => rfl
  | cons p rest ih =>
    simp only [List.map_cons, List.filter_cons]
    cases h : q p.1 <;> simp [h, ih]

theorem map_pair_filter (q : VRecord → Bool) (l : List VRecord) :
    ((l.map (fun v => (v, v.slug))).filter (fun p => q p.1)).map (·.1) =
      l.filter q := by
  induction l with
  | nil => rfl
  | cons v rest ih =>
    simp only [List.map_cons, List.filter_cons]
    cases h : q v <;> simp [h, ih]

theorem partition_pinned_snd {K : Type} (parse : String → Option K)
    (flag : Bool) (l : List VRecord) :
    ∀ p ∈ (partitionVersions parse flag l).1, p.2 = p.1.slug := by
  rw [partition_pinned]
  intro p hp
  rcases List.mem_map.mp hp with ⟨v, _, rfl⟩
  rfl

theorem partition_pinned_map {K : Type} (parse : String → Option K)
    (flag : Bool) (l : List VRecord) :
    (partitionVersions parse flag l).1.map (·.1) = l.filter (pinnedB flag) := by
  rw [partition_pinned, List.map_map]
  show List.map (fun v => v) (List.filter (pinnedB flag) l) =
    List.filter (pinnedB flag) l
  simp

/-- Filtering a slug tie class through the composed output gives the class
of the alphabetised input: each block is stable on tie classes. -/
theorem genericCompose_filter {K : Type} [LinearOrder K]
    (parse : String → Option K) (flag : Bool) (b : List VRecord)
    (x : List Char) :
    (genericCompose parse flag b).filter (slugEq x) = b.filter (slugEq x) := by
  have hq1 : ∀ p ∈ (partitionVersions parse flag b).1,
      ∀ p' ∈ (partitionVersions parse flag b).1,
      slugEq x p.1 = true → slugEq x p'.1 = true →
      (decide (p.2.data ≤ p'.2.data)) = true := by
    intro p hp p' hp' hsp hsp'
    rw [partition_pinned_snd parse flag b p hp,
      partition_pinned_snd parse flag b p' hp',
      slugEq_slug hsp, slugEq_slug hsp']
    simp
  have hq2 : ∀ p ∈ (partitionVersions parse flag b).2.1,
      ∀ p' ∈ (partitionVersions parse flag b).2.1,
      slugEq x p.1 = true → slugEq x p'.1 = true →
      (decide (p'.2 ≤ p.2)) = true := by
    intro p hp p' hp' hsp hsp'
    have h1 := partition_valid_parse parse flag b p hp
    have h2 := partition_valid_parse parse flag b p' hp'
    rw [slugEq_slug hsp] at h1
    rw [slugEq_slug hsp'] at h2
    rw [h1] at h2
    injection h2 with h2
    rw [h2]
    simp
  have b1 : ((pySortKeyAsc (fun p : VRecord × String => p.2.data)
      (partitionVersions parse flag b).1).map (·.1)).filter (slugEq x) =
      b.filter (fun v => slugEq x v && pinnedB flag v) := by
    rw [filter_map_fst, pySortKeyAsc,
      filter_stableSort _ _ _ hq1, partition_pinned, map_pair_filter,
      List.filter_filter]
  have b2 : ((pySortKeyDesc (fun p : VRecord × K => p.2)
      (partitionVersions parse flag b).2.1).map (·.1)).filter (slugEq x) =
      b.filter (fun v => slugEq x v && validB parse flag v) := by
    rw [filter_map_fst, pySortKeyDesc,
      filter_stableSort _ _ _ hq2, ← filter_map_fst,
      partition_valid_map, List.filter_filter]
  have b3 : ((partitionVersions parse flag b).2.2).filter (slugEq x) =
      b.filter (fun v => slugEq x v && invalidB parse flag v) := by
    rw [partition_invalid, List.filter_filter]
  calc (genericCompose parse flag b).filter (slugEq x)
      = b.filter (fun v => slugEq x v && pinnedB flag v) ++
          (b.filter (fun v => slugEq x v && validB parse flag v) ++
            b.filter (fun v => slugEq x v && invalidB parse flag v)) := by
        simp only [genericCompose, List.filter_append, b1, b2, b3,
          List.append_assoc]
    _ = b.filter (slugEq x) := filter_buckets parse flag b x

/-- Exactly one bucket accepts each record. -/
theorem bucket_trichotomy {K : Type} (parse : String → Option K) (flag : Bool)
    (v : VRecord) :
    (pinnedB flag v = true ∧ validB parse flag v = false ∧
      invalidB parse flag v = false) ∨
    (pinnedB flag v = false ∧ validB parse flag v = true ∧
      invalidB parse flag v = false) ∨
    (pinnedB flag v = false ∧ validB parse flag v = false ∧
      invalidB parse flag v = true) := by
  cases h : pinnedB flag v
  · cases hp : parse v.slug
    · right; right; simp [validB, invalidB, h, hp]
    · right; left; simp [validB, invalidB, h, hp]
  · left; simp [validB, invalidB, h]

theorem filter_three_perm {α : Type} (p q r : α → Bool) (l : List α)
    (h : ∀ a ∈ l,
      (p a = true ∧ q a = false ∧ r a = false) ∨
      (p a = false ∧ q a = true ∧ r a = false) ∨
      (p a = false ∧ q a = false ∧ r a = true)) :
    (l.filter p ++ (l.filter q ++ l.filter r)).Perm l := by
  induction l with
  | nil => simp
  | cons a t ih =>
    have ht := ih fun b hb => h b (List.mem_cons_of_mem a hb)
    rcases h a (List.mem_cons_self a t) with ⟨h1, h2, h3⟩ | ⟨h1, h2, h3⟩ |
      ⟨h1, h2, h3⟩
    · simp only [List.filter_cons, h1, h2, h3, if_pos, if_neg,
        Bool.false_eq_true, if_false, if_true]
      exact ht.cons a
    · simp only [List.filter_cons, h1, h2, h3, Bool.false_eq_true, if_false,
        if_true]
      exact List.Perm.trans List.perm_middle (ht.cons a)
    · simp only [List.filter_cons, h1, h2, h3, Bool.false_eq_true, if_false,
        if_true]
      refine List.Perm.trans (List.Perm.append_left _ List.perm_middle) ?_
      exact List.Perm.trans List.perm_middle (ht.cons a)

/-- The composed output is a permutation of the alphabetised input. -/
theorem genericCompose_perm {K : Type} [LinearOrder K]
    (parse : String → Option K) (flag : Bool) (b : List VRecord) :
    (genericCompose parse flag b).Perm b := by
  have p1 : ((pySortKeyAsc (fun p : VRecord × String => p.2.data)
      (partitionVersions parse flag b).1).map (·.1)).Perm
      (b.filter (pinnedB flag)) := by
    refine ((stableSort_perm _ _).map _).trans ?_
    rw [partition_pinned_map]
  have p2 : ((pySortKeyDesc (fun p : VRecord × K => p.2)
      (partitionVersions parse flag b).2.1).map (·.1)).Perm
      (b.filter (validB parse flag)) := by
    refine ((stableSort_perm _ _).map _).trans ?_
    rw [partition_valid_map]
  have p3 : ((partitionVersions parse flag b).2.2).Perm
      (b.filter (invalidB parse flag)) := by
    rw [partition_invalid]
  refine List.Perm.trans ?_
    (filter_three_perm (pinnedB flag) (validB parse flag)
      (invalidB parse flag) b (fun a _ => bucket_trichotomy parse flag a))
  have hc := p1.append (p2.append p3)
  simpa [genericCompose] using hc

theorem descLe_total {α κ : Type} [LinearOrder κ] (key : α → κ) (a b : α) :
    (decide (key b ≤ key a)) = true ∨ (decide (key a ≤ key b)) = true := by
  rcases le_total (key b) (key a) with h | h
  · left; simpa using h
  · right; simpa using h

theorem descLe_trans {α κ : Type} [LinearOrder κ] (key : α → κ) (a b c : α) :
    (decide (key b ≤ key a)) = true → (decide (key c ≤ key b)) = true →
    (decide (key c ≤ key a)) = true := by
  intro h1 h2
  simp only [decide_eq_true_eq] at *
  exact le_trans h2 h1

theorem ascLe_total {α κ : Type} [LinearOrder κ] (key : α → κ) (a b : α) :
    (decide (key a ≤ key b)) = true ∨ (decide (key b ≤ key a)) = true := by
  rcases le_total (key a) (key b) with h | h
  · left; simpa using h
  · right; simpa using h

theorem ascLe_trans {α κ : Type} [LinearOrder κ] (key : α → κ) (a b c : α) :
    (decide (key a ≤ key b)) = true → (decide (key b ≤ key c)) = true →
    (decide (key a ≤ key c)) = true := by
  intro h1 h2
  simp only [decide_eq_true_eq] at *
  exact le_trans h1 h2

theorem pySortKeyDesc_pairwise {α κ : Type} [LinearOrder κ] (key : α → κ)
    (l : List α) :
    (pySortKeyDesc key l).Pairwise (fun a b => key b ≤ key a) :=
  (stableSort_pairwise _ (descLe_total key) (descLe_trans key) l).imp
    (fun h => of_decide_eq_true h)

/-- Re-alphabetising the composed output restores the alphabetised input:
the engine only reorders across tie classes in key order, and is stable
inside each tie class. -/
theorem baseline_of_compose {K : Type} [LinearOrder K]
    (parse : String → Option K) (flag : Bool) (b : List VRecord)
    (hb : b.Pairwise (fun u v : VRecord => v.slug.data ≤ u.slug.data)) :
    pySortKeyDesc (fun v : VRecord => v.slug.data)
      (genericCompose parse flag b) = b := by
  apply stable_sorted_unique (fun v : VRecord => v.slug.data) slugEq
    (fun x a => by simp [slugEq])
  · exact (stableSort_perm _ _).trans (genericCompose_perm parse flag b)
  · exact pySortKeyDesc_pairwise _ _
  · exact hb
  · intro x
    have hstab : List.filter (slugEq x)
        (pySortKeyDesc (fun v : VRecord => v.slug.data)
          (genericCompose parse flag b)) =
        List.filter (slugEq x) (genericCompose parse flag b) := by
      apply filter_stableSort
      intro a _ c _ ha hc
      have ha' := of_decide_eq_true ha
      have hc' := of_decide_eq_true hc
      simp only [decide_eq_true_eq]
      show (fun v : VRecord => v.slug.data) c ≤ (fun v : VRecord => v.slug.data) a
      rw [show (fun v : VRecord => v.slug.data) c = c.slug.data from rfl,
        show (fun v : VRecord => v.slug.data) a = a.slug.data from rfl, ha', hc']
    rw [hstab]
    exact genericCompose_filter parse flag b x

/-- Every pair in the output of sort_versions carries the parse of its own
record. -/
theorem sort_versions_snd (l : List VRecord) :
    ∀ p ∈ sort_versions l,
      parseFailsafeChars p.1.verbose_name.data = some p.2 := by
  intro p hp
  have hp' : p ∈ l.filterMap fun version_obj =>
      (parseFailsafeChars version_obj.verbose_name.data).map
        (fun c => (version_obj, c)) :=
    (stableSort_perm _ _).mem_iff.mp hp
  rcases List.mem_filterMap.mp hp' with ⟨a, _, hF⟩
  rcases Option.map_eq_some'.mp hF with ⟨c, hc, hpc⟩
  rw [← hpc]
  exact hc

theorem rebuild_pairs (s : List (VRecord × PyVersion))
    (hs : ∀ p ∈ s, parseFailsafeChars p.1.verbose_name.data = some p.2) :
    ((s.map (·.1)).filterMap fun version_obj =>
      (parseFailsafeChars version_obj.verbose_name.data).map
        (fun c => (version_obj, c))) = s := by
  induction s with
  | nil => rfl
  | cons p rest ih =>
    simp only [List.map_cons, List.filterMap_cons,
      hs p (List.mem_cons_self p rest)]
    simpa using ih fun q hq => hs q (List.mem_cons_of_mem p hq)

/-! ## Helper lemmas for the sentinel and the wildcard substitution -/

theorem listIndex_eq_none {a : String} {l : List String} (h : a ∉ l) :
    listIndex a l = none := by
  induction l with
  | nil => rfl
  | cons b t ih =>
    have hba : ¬ b = a := fun hc => h (hc ▸ List.mem_cons_self b t)
    simp only [listIndex, if_neg hba,
      ih (fun hc => h (List.mem_cons_of_mem b hc))]
    rfl

theorem count_filter_le_count (p : Char → Bool) (c : Char) (l : List Char) :
    (l.filter p).count c ≤ l.count c := by
  induction l with
  | nil => simp
  | cons a t ih =>
    rw [List.count_cons]
    cases hp : p a
    · rw [List.filter_cons_of_neg (by simp [hp])]
      exact le_trans ih (Nat.le_add_right _ _)
    · rw [List.filter_cons_of_pos (by simp [hp]), List.count_cons]
      exact Nat.add_le_add_right ih _


theorem count_replaceDotX_le : ∀ cs : List Char,
    (replaceDotX cs).count 'x' ≤ cs.count 'x'
  | [] => by simp [replaceDotX]
  | [c] => by simp [replaceDotX]
  | c1 :: c2 :: rest => by
    by_cases h : c1 = '.' ∧ c2 = 'x'
    · have hr := count_replaceDotX_le rest
      rw [replaceDotX, if_pos h, h.1, h.2]
      simp only [List.count_cons]
      simp
      omega
    · have hr := count_replaceDotX_le (c2 :: rest)
      rw [replaceDotX, if_neg h]
      simp only [List.count_cons] at *
      omega

theorem hasDotX_count_pos : ∀ cs : List Char,
    hasDotX cs = true → 0 < cs.count 'x'
  | [] => by simp [hasDotX]
  | [c] => by simp [hasDotX]
  | c1 :: c2 :: rest => by
    intro h
    rw [hasDotX] at h
    rcases (Bool.or_eq_true _ _).mp h with h' | h'
    · have h2 : c2 = 'x' := of_decide_eq_true (Bool.and_elim_right h')
      subst h2
      simp [List.count_cons]
    · have := hasDotX_count_pos (c2 :: rest) h'
      simp only [List.count_cons] at *
      omega

theorem count_replaceDotX_lt : ∀ cs : List Char, hasDotX cs = true →
    (replaceDotX cs).count 'x' < cs.count 'x'
  | [] => by simp [hasDotX]
  | [c] => by simp [hasDotX]
  | c1 :: c2 :: rest => by
    intro h
    by_cases hc : c1 = '.' ∧ c2 = 'x'
    · have hr := count_replaceDotX_le rest
      rw [replaceDotX, if_pos hc, hc.2]
      simp only [List.count_cons]
      simp
      omega
    · have h' : hasDotX (c2 :: rest) = true := by
        rw [hasDotX] at h
        rcases (Bool.or_eq_true _ _).mp h with h' | h'
        · exact absurd ⟨of_decide_eq_true (Bool.and_elim_left h'),
            of_decide_eq_true (Bool.and_elim_right h')⟩ hc
        · exact h'
      have hr := count_replaceDotX_lt (c2 :: rest) h'
      rw [replaceDotX, if_neg hc]
      simp only [List.count_cons] at *
      omega

/-- Fuel irrelevance for the failsafe recursion: any fuel strictly above the
count of `x` characters produces the same answer. -/
theorem parseFailsafeAux_fuel : ∀ (n m : Nat) (cs : List Char),
    cs.count 'x' < n → cs.count 'x' < m →
    parseFailsafeAux n cs = parseFailsafeAux m cs := by
  intro n
  induction n with
  | zero => intro m cs hn; omega
  | succ n' ih =>
    intro m cs hn hm
    cases m with
    | zero => omega
    | succ m' =>
      simp only [parseFailsafeAux]
      cases hp : pep440ParseChars (asciiFilter cs) with
      | some v => rfl
      | none =>
        by_cases hg : (!(asciiFilter cs).isEmpty && hasDotX (asciiFilter cs)) = true
        · rw [if_pos hg, if_pos hg]
          have hdx : hasDotX (asciiFilter cs) = true :=
            Bool.and_elim_right hg
          have h1 : (replaceDotX (asciiFilter cs)).count 'x' <
              (asciiFilter cs).count 'x' := count_replaceDotX_lt _ hdx
          have h2 : (asciiFilter cs).count 'x' ≤ cs.count 'x' :=
            count_filter_le_count _ _ _
          exact ih m' (replaceDotX (asciiFilter cs)) (by omega) (by omega)
        · rw [if_neg hg, if_neg hg]

/-- Trailing-zero removal keeps a nonzero head. -/
theorem dropTrailingZeros_cons_of_ne {n : Nat} (t : List Nat) (hn : n ≠ 0) :
    ∃ t', dropTrailingZeros (n :: t) = n :: t' := by
  rw [dropTrailingZeros]
  cases h : dropTrailingZeros t with
  | nil => exact ⟨[], by rw [if_neg hn]⟩
  | cons a r => exact ⟨a :: r, rfl⟩

/-! ## Example records used by the claims -/

/-- Sentinel value `Version("0.01")` of comparable_version. -/
def sentinelVersion : PyVersion := ⟨0, [0, 1], none, none, none, none⟩

def rec200 : VRecord := ⟨"2.0.0", "2.0.0", .tag⟩

def rec150 : VRecord := ⟨"1.5.0", "1.5.0", .branch⟩

def recLatest : VRecord := ⟨"latest", "latest", .branch⟩

def recStable : VRecord := ⟨"stable", "stable", .branch⟩

def recNav : VRecord := ⟨"not-a-version", "not-a-version", .branch⟩

def tag200 : VRecord := ⟨"2.0.0", "2.0.0", .tag⟩

def branchRc : VRecord := ⟨"2.1.0-rc1", "2.1.0-rc1", .branch⟩

def branch210 : VRecord := ⟨"2.1.0", "2.1.0", .branch⟩

def tag190 : VRecord := ⟨"1.9.0", "1.9.0", .tag⟩

def v200 : PyVersion := ⟨0, [2, 0, 0], none, none, none, none⟩

/-! ## Claims -/

/-- C1: determine_stable_version sorts with sort_versions and discards
pre-releases; when the filtered descending list is empty it returns none;
otherwise it returns the first record of kind tag in that order, and when no
tag is present the single highest-ranked remaining record of any kind.  In
particular the tag 2.0.0 is preferred over the higher-ranked non-prerelease
branch 2.1.0, and with no tags the highest branch wins. -/
theorem c1_determine_stable_version (l : List VRecord) :
    (((sort_versions l).filter fun p => !(p.2.is_prerelease)) = [] →
      determine_stable_version l = none) ∧
    (∀ p : VRecord × PyVersion,
      (((sort_versions l).filter fun p => !(p.2.is_prerelease)).find?
        fun p => p.1.vtype == VKind.tag) = some p →
      determine_stable_version l = some p.1) ∧
    ((((sort_versions l).filter fun p => !(p.2.is_prerelease)).find?
        fun p => p.1.vtype == VKind.tag) = none →
      determine_stable_version l =
        ((((sort_versions l).filter
          fun p => !(p.2.is_prerelease)).head?).map (·.1))) ∧
    determine_stable_version [tag200, branchRc, branch210, tag190] =
      some tag200 ∧
    determine_stable_version [branchRc, branch210] = some branch210 := by
  refine ⟨?_, ?_, ?_, by decide, by decide⟩
  · intro h
    show (match (((sort_versions l).filter fun p =>
        !(p.2.is_prerelease)).find? fun p => p.1.vtype == VKind.tag) with
      | some p => some p.1
      | none => ((((sort_versions l).filter fun p =>
          !(p.2.is_prerelease)).head?).map (·.1))) = none
    rw [h]
    rfl
  · intro p h
    show (match (((sort_versions l).filter fun p =>
        !(p.2.is_prerelease)).find? fun p => p.1.vtype == VKind.tag) with
      | some p => some p.1
      | none => ((((sort_versions l).filter fun p =>
          !(p.2.is_prerelease)).head?).map (·.1))) = some p.1
    rw [h]
  · intro h
    show (match (((sort_versions l).filter fun p =>
        !(p.2.is_prerelease)).find? fun p => p.1.vtype == VKind.tag) with
      | some p => some p.1
      | none => ((((sort_versions l).filter fun p =>
          !(p.2.is_prerelease)).head?).map (·.1))) =
      ((((sort_versions l).filter fun p =>
          !(p.2.is_prerelease)).head?).map (·.1))
    rw [h]

/-- Witness for C1 at concrete inputs: a prerelease-only list yields none, a
list with a tag yields that tag, a tag-free list yields the highest branch. -/
theorem c1_witness :
    determine_stable_version [branchRc] = none ∧
    determine_stable_version [tag200, branchRc] = some tag200 ∧
    determine_stable_version [branch210] = some branch210 := by
  refine ⟨(c1_determine_stable_version [branchRc]).1 (by decide), ?_, ?_⟩
  · exact (c1_determine_stable_version [tag200, branchRc]).2.1
      (tag200, v200) (by decide)
  · exact ((c1_determine_stable_version [branch210]).2.2.1
      (by decide)).trans (by decide)

/-- C2: with repository kind git (default branch master), the comparable
keys form the strict descending chain master, latest, stable, 3.9.0,
garbage-branch. -/
theorem c2_comparable_version_chain :
    pvLt (comparable_version "latest" (some "git"))
        (comparable_version "master" (some "git")) ∧
    pvLt (comparable_version "stable" (some "git"))
        (comparable_version "latest" (some "git")) ∧
    pvLt (comparable_version "3.9.0" (some "git"))
        (comparable_version "stable" (some "git")) ∧
    pvLt (comparable_version "garbage-branch" (some "git"))
        (comparable_version "3.9.0" (some "git")) :=
  ⟨by decide, by decide, by decide, by decide⟩

/-- C3, behaviour at the failing input: for genuine string arguments the
failsafe parser never raises, but a bytes argument that is not valid UTF-8
raises UnicodeDecodeError to the caller, because the decode call sits before
the try block; the docstring and the dead except UnicodeError handler say
the intent was to return None. -/
theorem c3_parse_version_failsafe_raises :
    (∀ s : String, exceptOk (parse_version_failsafe (.str s)) = true) ∧
    parse_version_failsafe (.bytes [255]) = .error .unicodeDecodeErr :=
  ⟨fun _ => rfl, rfl⟩

/-- C4: sort_versions keeps only records whose verbose name parses — every
output pair carries the successful parse of its record — and on the records
named 2.0.0, 1.5.0, latest, not-a-version it returns exactly the records
for 2.0.0 then 1.5.0, with latest and not-a-version absent. -/
theorem c4_sort_versions_drops (l : List VRecord) :
    (∀ p ∈ sort_versions l,
      parseFailsafeChars p.1.verbose_name.data = some p.2) ∧
    (sort_versions [rec200, rec150, recLatest, recNav]).map (·.1) =
      [rec200, rec150] :=
  ⟨sort_versions_snd l, by decide⟩

/-- Witness for C4: the record named 2.0.0 is in the output paired with its
parse, and the concrete output holds. -/
theorem c4_witness :
    parseFailsafeChars rec200.verbose_name.data = some v200 ∧
    (sort_versions [rec200, rec150, recLatest, recNav]).map (·.1) =
      [rec200, rec150] :=
  ⟨(c4_sort_versions_drops [rec200, rec150, recLatest, recNav]).1
      (rec200, v200) (by decide),
    (c4_sort_versions_drops [rec200, rec150, recLatest, recNav]).2⟩

theorem partition_valid_eq_filterMap {K : Type} (parse : String → Option K)
    (flag : Bool) (l : List VRecord) :
    (partitionVersions parse flag l).2.1 =
      l.filterMap (fun v => if pinnedB flag v then none
        else (parse v.slug).map (fun k => (v, k))) := by
  induction l with
  | nil => rfl
  | cons v rest ih =>
    simp only [partitionVersions, List.filterMap_cons]
    by_cases h : pinnedB flag v = true
    · rw [if_pos (by simpa [pinnedB] using h)]
      simp [h, ih]
    · rw [if_neg (by simpa [pinnedB] using h)]
      cases hp : parse v.slug <;>
        simp [(by simpa using h : pinnedB flag v = false), hp, ih]

theorem genericCompose_def {K : Type} [LinearOrder K]
    (parse : String → Option K) (flag : Bool) (base : List VRecord) :
    genericCompose parse flag base =
      (pySortKeyAsc (fun p : VRecord × String => p.2.data)
        (partitionVersions parse flag base).1).map (·.1) ++
      (pySortKeyDesc (fun p : VRecord × K => p.2)
        (partitionVersions parse flag base).2.1).map (·.1) ++
      (partitionVersions parse flag base).2.2 := rfl

/-- C5: the generic engine composes its output as three blocks over the
descending-alphabetical baseline: the pinned records (slug latest or
stable), paired with their slugs and sorted ascending by slug so that
latest precedes stable; then the records whose slug parses, sorted
descending by parsed value; then the records that failed to parse, in
their baseline (descending-alphabetical) order unchanged.  On the records
named 2.0.0, 1.5.0, latest, not-a-version with pinning enabled the result
is latest, 2.0.0, 1.5.0, not-a-version. -/
theorem c5_generic_composition :
    (∀ (K : Type) [LinearOrder K] (parse : String → Option K)
      (flag : Bool) (l : List VRecord),
      sort_versions_generic parse flag l =
        (pySortKeyAsc (fun p : VRecord × String => p.2.data)
            (((pySortKeyDesc (fun v : VRecord => v.slug.data) l).filter
              (pinnedB flag)).map (fun v => (v, v.slug)))).map (·.1) ++
          (pySortKeyDesc (fun p : VRecord × K => p.2)
              ((pySortKeyDesc (fun v : VRecord => v.slug.data) l).filterMap
                (fun v => if pinnedB flag v then none
                  else (parse v.slug).map (fun k => (v, k))))).map (·.1) ++
            (pySortKeyDesc (fun v : VRecord => v.slug.data) l).filter
              (invalidB parse flag)) ∧
    sort_versions_python_packaging [rec200, rec150, recLatest, recNav] true =
      [recLatest, rec200, rec150, recNav] ∧
    sort_versions_python_packaging [recLatest, recStable, rec200] true =
      [recLatest, recStable, rec200] := by
  refine ⟨?_, by decide, by decide⟩
  intro K _ parse flag l
  rw [sort_versions_generic_eq_compose, genericCompose_def,
    partition_pinned, partition_invalid, partition_valid_eq_filterMap]

/-- C6: the generic engine never loses a malformed record — a record that
reaches the strategy parse and fails (models a raised failure kind) appears
in the trailing invalid block of the output — in contrast with
sort_versions, which excludes records whose verbose name fails to parse. -/
theorem c6_malformed_demoted :
    (∀ (K : Type) [LinearOrder K] (parse : String → Option K)
      (flag : Bool) (l : List VRecord) (r : VRecord),
      r ∈ l → pinnedB flag r = false → parse r.slug = none →
      (sort_versions_generic parse flag l =
        (pySortKeyAsc (fun p : VRecord × String => p.2.data)
          (partitionVersions parse flag
            (pySortKeyDesc (fun v : VRecord => v.slug.data) l)).1).map (·.1) ++
        (pySortKeyDesc (fun p : VRecord × K => p.2)
          (partitionVersions parse flag
            (pySortKeyDesc (fun v : VRecord => v.slug.data) l)).2.1).map
          (·.1) ++
        (pySortKeyDesc (fun v : VRecord => v.slug.data) l).filter
          (invalidB parse flag)) ∧
      r ∈ (pySortKeyDesc (fun v : VRecord => v.slug.data) l).filter
          (invalidB parse flag)) ∧
    (∀ (l : List VRecord) (r : VRecord),
      parseFailsafeChars r.verbose_name.data = none →
      r ∉ (sort_versions l).map (·.1)) := by
  constructor
  · intro K _ parse flag l r hr hpin hparse
    constructor
    · rw [sort_versions_generic_eq_compose, genericCompose_def,
        partition_invalid]
    · rw [List.mem_filter]
      refine ⟨(stableSort_perm _ _).mem_iff.mpr hr, ?_⟩
      simp [invalidB, hpin, hparse]
  · intro l r hparse hmem
    rcases List.mem_map.mp hmem with ⟨p, hp, hfst⟩
    have hsnd := sort_versions_snd l p hp
    rw [hfst, hparse] at hsnd
    exact Option.noConfusion hsnd

/-- Witness for C6: the record not-a-version, which fails the packaging
parse, lands in the trailing invalid block of the generic output, and is
excluded by sort_versions. -/
theorem c6_witness :
    recNav ∈ (pySortKeyDesc (fun v : VRecord => v.slug.data)
        [rec200, rec150, recLatest, recNav]).filter
      (invalidB (fun slug => (pep440Parse slug).map vkey) true) ∧
    recNav ∉ (sort_versions [rec200, rec150, recLatest, recNav]).map (·.1) :=
  ⟨(c6_malformed_demoted.1 VKey (fun slug => (pep440Parse slug).map vkey)
      true [rec200, rec150, recLatest, recNav] recNav
      (by decide) (by decide) (by decide)).2,
    c6_malformed_demoted.2 [rec200, rec150, recLatest, recNav] recNav
      (by decide)⟩

/-- C7 counterexample: the string 0.0 parses successfully, yet the
sentinel produced for the unparseable garbage-branch is not below it —
Version("0.01") sorts above Version("0.0"). -/
theorem c7_counterexample :
    (parseFailsafeChars "0.0".data).isSome = true ∧
    ¬ pvLt (comparable_version "garbage-branch" none)
        (comparable_version "0.0" none) ∧
    pvLt (comparable_version "0.0" none)
        (comparable_version "garbage-branch" none) :=
  ⟨by decide, by decide, by decide⟩

/-- C7 as amended: a string that fails to parse and matches no synthetic
priority name maps to the fixed sentinel Version("0.01"), and that sentinel
is strictly below every successfully parsed version whose first release
component is at least 1; parseable versions at or below 0.01, such as 0.0,
sort below the sentinel instead. -/
theorem c7_sentinel_amended :
    (∀ (raw : String) (repo_type : Option String),
      parseFailsafeChars raw.data = none →
      raw ∉ highestVersions repo_type →
      comparable_version raw repo_type = sentinelVersion) ∧
    (∀ (s : String) (v : PyVersion),
      parseFailsafeChars s.data = some v → 1 ≤ v.release.headD 0 →
      pvLt sentinelVersion v) := by
  constructor
  · intro raw rt hparse hmem
    show (match parseFailsafeChars raw.data with
      | some c => c
      | none =>
        match listIndex raw (highestVersions rt) with
        | some position => (pep440Parse (toString (999999 - position))).getD
            ⟨0, [], none, none, none, none⟩
        | none => (pep440Parse "0.01").getD
            ⟨0, [], none, none, none, none⟩) = sentinelVersion
    rw [hparse, listIndex_eq_none hmem]
    rfl
  · intro s v _ hmaj
    cases hrel : v.release with
    | nil => rw [hrel] at hmaj; simp at hmaj
    | cons n t =>
      rw [hrel] at hmaj
      have hn : n ≠ 0 := by simp only [List.headD_cons] at hmaj; omega
      obtain ⟨t', ht'⟩ := dropTrailingZeros_cons_of_ne t hn
      show vkey sentinelVersion < vkey v
      have hs : vkey sentinelVersion =
          toLex (0, toLex ([0, 1], toLex (preKey sentinelVersion,
            toLex (postKey sentinelVersion, toLex (devKey sentinelVersion,
              localKey sentinelVersion))))) := rfl
      rw [hs, vkey, hrel, ht']
      rcases Nat.eq_zero_or_pos v.epoch with he | he
      · rw [he]
        refine Prod.Lex.right _ ?_
        refine Prod.Lex.left _ _ ?_
        refine List.Lex.rel ?_
        simp only [List.headD_cons] at hmaj
        omega
      · exact Prod.Lex.left _ _ he

/-- Witness for C7: garbage-branch maps to the sentinel, and the sentinel
sits below the parsed 3.9.0. -/
theorem c7_witness :
    comparable_version "garbage-branch" none = sentinelVersion ∧
    pvLt sentinelVersion ⟨0, [3, 9, 0], none, none, none, none⟩ :=
  ⟨c7_sentinel_amended.1 "garbage-branch" none (by decide) (by decide),
    c7_sentinel_amended.2 "3.9.0" ⟨0, [3, 9, 0], none, none, none, none⟩
      (by decide) (by decide)⟩

theorem parseFailsafeAux_step (k : Nat) (cs : List Char)
    (hparse : pep440ParseChars (asciiFilter cs) = none)
    (hne : (asciiFilter cs).isEmpty = false)
    (hdx : hasDotX (asciiFilter cs) = true) :
    parseFailsafeAux (k + 1) cs =
      parseFailsafeAux k (replaceDotX (asciiFilter cs)) := by
  simp only [parseFailsafeAux, hparse, hne, hdx, Bool.not_false,
    Bool.true_and, if_true]

/-- C8: a trailing .x component parses as the maximal numeric literal —
comparable_version of 1.x (and 1.0.x) equals that of 1.999999 (and
1.0.999999) — and in general, when the strict parse of the normalised form
fails and the form is nonempty and contains .x, parse_version_failsafe
substitutes every .x occurrence with .999999 and re-parses the result. -/
theorem c8_wildcard :
    comparable_version "1.x" none = comparable_version "1.999999" none ∧
    comparable_version "1.0.x" none = comparable_version "1.0.999999" none ∧
    (∀ cs : List Char,
      pep440ParseChars (asciiFilter cs) = none →
      (asciiFilter cs).isEmpty = false → hasDotX (asciiFilter cs) = true →
      parseFailsafeChars cs =
        parseFailsafeChars (replaceDotX (asciiFilter cs))) := by
  refine ⟨by decide, by decide, ?_⟩
  intro cs hparse hne hdx
  have h1 : (replaceDotX (asciiFilter cs)).count 'x' <
      (asciiFilter cs).count 'x' := count_replaceDotX_lt _ hdx
  have h2 : (asciiFilter cs).count 'x' ≤ cs.count 'x' :=
    count_filter_le_count _ _ _
  show parseFailsafeAux (cs.count 'x' + 1) cs =
    parseFailsafeAux ((replaceDotX (asciiFilter cs)).count 'x' + 1)
      (replaceDotX (asciiFilter cs))
  rw [parseFailsafeAux_step _ _ hparse hne hdx]
  exact parseFailsafeAux_fuel _ _ _ (by omega) (by omega)

/-- Witness for C8: the general substitution equation applied to 1.x. -/
theorem c8_witness :
    parseFailsafeChars "1.x".data =
      parseFailsafeChars (replaceDotX (asciiFilter "1.x".data)) :=
  c8_wildcard.2.2 "1.x".data (by decide) (by decide) (by decide)

/-- C9: both sorting strategies are idempotent — feeding the records of a
sort_versions output back to sort_versions reproduces the same pair list
(the sort is stable, so a sorted list is a fixed point), and applying
sort_versions_generic to its own output, with the same parameters, returns
that output unchanged. -/
theorem c9_sorting_idempotent :
    (∀ l : List VRecord,
      sort_versions ((sort_versions l).map (·.1)) = sort_versions l) ∧
    (∀ (K : Type) [LinearOrder K] (parse : String → Option K)
      (flag : Bool) (l : List VRecord),
      sort_versions_generic parse flag
        (sort_versions_generic parse flag l) =
        sort_versions_generic parse flag l) := by
  constructor
  · intro l
    show pySortKeyDesc (fun p : VRecord × PyVersion => vkey p.2)
        (((sort_versions l).map (·.1)).filterMap fun version_obj =>
          (parseFailsafeChars version_obj.verbose_name.data).map
            (fun c => (version_obj, c))) = sort_versions l
    rw [rebuild_pairs _ (sort_versions_snd l)]
    exact stableSort_of_pairwise _ _
      (stableSort_pairwise _
        (descLe_total (fun p : VRecord × PyVersion => vkey p.2))
        (descLe_trans (fun p : VRecord × PyVersion => vkey p.2)) _)
  · intro K _ parse flag l
    rw [sort_versions_generic_eq_compose, sort_versions_generic_eq_compose,
      baseline_of_compose parse flag
        (pySortKeyDesc (fun v : VRecord => v.slug.data) l)
        (pySortKeyDesc_pairwise _ _)]

/-- C10: for every input list of records the generic engine returns a
permutation of the input — nothing is dropped, duplicated or replaced,
whether a record is pinned, parses, or fails to parse. -/
theorem c10_generic_permutation (K : Type) [LinearOrder K]
    (parse : String → Option K) (flag : Bool) (l : List VRecord) :
    (sort_versions_generic parse flag l).Perm l := by
  rw [sort_versions_generic_eq_compose]
  exact (genericCompose_perm parse flag _).trans (stableSort_perm _ _)
